import Mathlib

/-!
Shallow embedding of the fflonk BN254 backend (backend/fflonk/bn254/setup.go and
backend/fflonk/bn254/prove.go) of the gnark repository, together with theorems
settling the frozen claims about it.

Field elements (`fr.Element` of gnark-crypto, an external collaborator) are
modelled by an arbitrary field `F`; group elements (`kzg.Digest` / `bn254.G1Affine`)
by a module `G` over `F`.  Arrays of field elements are `List F`; Go `int64`
values that may hold the `-1` sentinel are `Int`.
-/

namespace Fflonk

/-! ## Slot enumeration (setup.go lines 19-41)

The enum describing how polynomials are entangled in the fflonk proof:
the i-th term of the folded polynomial corresponds to the i-th entry below.
With `q` custom gates the `q` setup `Qcp` slots sit between `setup_s3` and
`prover_l`, and the `q` custom-gate witness (Pi) slots come after `prover_h_3`,
so every prover slot is used at offset `+ q`. -/

def setup_ql : Nat := 0
def setup_qr : Nat := 1
def setup_qm : Nat := 2
def setup_qo : Nat := 3
def setup_qk_incomplete : Nat := 4
def setup_s1 : Nat := 5
def setup_s2 : Nat := 6
def setup_s3 : Nat := 7
def prover_l : Nat := 8
def prover_r : Nat := 9
def prover_o : Nat := 10
def prover_z : Nat := 11
def prover_h_1 : Nat := 12
def prover_h_2 : Nat := 13
def prover_h_3 : Nat := 14
def number_polynomials : Nat := 15

/-! ## Circuit shape (constraint/bn254 SparseR1CS, as consumed by setup.go/prove.go) -/

/-- One sparse R1C gate: `QL..QC` are indices into the coefficient table,
`XA/XB/XC` are the wire (variable) ids of the left/right/output wires. -/
structure SparseR1C where
  QL : Nat
  QR : Nat
  QM : Nat
  QO : Nat
  QC : Nat
  XA : Nat
  XB : Nat
  XC : Nat
deriving DecidableEq, Repr

/-- Custom-gate (Bsb22) commitment metadata: the committed wire indices and the
index of the commitment wire itself. -/
structure PlonkCommitment where
  Committed : List Nat
  CommitmentIndex : Nat
deriving DecidableEq, Repr

/-- The part of `cs.SparseR1CS` read by Setup/Prove: the coefficient table, the
counts of public/secret/internal variables, the gate list and the commitment
metadata. -/
structure SparseR1CS (F : Type) where
  Coefficients : List F
  nbPublic : Nat
  nbSecret : Nat
  NbInternalVariables : Nat
  constraints : List SparseR1C
  CommitmentInfo : List PlonkCommitment
deriving DecidableEq

/-! ## Domain sizes -/

/-- Fuel-based structural computation of `⌈log₂ v⌉` (so that the kernel can
evaluate it on literals); agrees with `Nat.clog 2 v` once the fuel is `≥ v`. -/
def clog2Aux : Nat → Nat → Nat
  | 0, _ => 0
  | fuel + 1, v => if v ≤ 1 then 0 else clog2Aux fuel ((v + 1) / 2) + 1

/-- `⌈log₂ v⌉`, executable by the kernel. -/
def clog2 (v : Nat) : Nat := clog2Aux v v

/-- `ecc.NextPowerOfTwo` (gnark-crypto): the least power of two that is `≥ v`
(and `v` itself for `v ≤ 1`; the Go bit-twiddling returns 0 for 0 and 1 for 1). -/
def nextPowerOfTwo (v : Nat) : Nat :=
  if v ≤ 1 then v else 2 ^ clog2 v

/-- `sizeSystem` of setup.go `initFFTDomain` / prove.go `newInstance`:
constraints plus the placeholder constraints for the public inputs. -/
def sizeSystem {F : Type} (c : SparseR1CS F) : Nat :=
  c.constraints.length + c.nbPublic

/-- The small-domain cardinality: `fft.NewDomain(sizeSystem)` rounds up to the
next power of two. -/
def domainCardinality {F : Type} (c : SparseR1CS F) : Nat :=
  nextPowerOfTwo (sizeSystem c)

/-- Cardinality of `s.domain0` (prove.go `newInstance`), same formula. -/
def domain0Card (s : Nat) : Nat := nextPowerOfTwo s

/-- Cardinality of `s.domain1` (prove.go lines 238-242): `8×` the system size
when `sizeSystem < 6`, else `4×`, each rounded up to a power of two by
`fft.NewDomain`. -/
def domain1Card (s : Nat) : Nat :=
  if s < 6 then nextPowerOfTwo (8 * s) else nextPowerOfTwo (4 * s)

/-- The folding factor `t` of setup.go `commitTrace` line 255 and prove.go
`commitToQuotient` line 1120: `number_polynomials + 2*len(Qcp)`. -/
def foldingT (nbQcp : Nat) : Nat := number_polynomials + 2 * nbQcp

/-- Modelled from the spec: `getNextDivisorRMinusOne` is defined in repository
code that is not part of the excerpt (only its callers are).  Section 4.7 of
the spec fixes the folding factor `t` to the total count of distinct
polynomials entangled together (setup polynomials + prover polynomials +
custom-gate commitments), i.e. `number_polynomials + 2*|Qcp|`, which also
matches the source comments "t = |{Ql,…,(Pi)_i}|" (setup.go line 71) and
"the size of the first set of polynomial is 15+2*|Qcp|" (prove.go line 714). -/
def getNextDivisorRMinusOne (nbQcp : Nat) : Nat :=
  number_polynomials + 2 * nbQcp

/-! ## Trace construction (setup.go `NewTrace`, lines 169-231) -/

section TraceDefs

variable {F : Type} [Field F]

/-- `spr.Coefficients[k]` (out-of-range reads, which would panic in Go, give 0). -/
def coeffAt (c : SparseR1CS F) (k : Nat) : F := c.Coefficients.getD k 0

/-- `size` in `NewTrace`: next power of two of (constraints + public inputs). -/
def traceSize (c : SparseR1CS F) : Nat := domainCardinality c

/-- The `ql` column of `NewTrace`: `-1` on the `nbPublic` placeholder rows,
then the `QL` coefficient of each gate, then padding zeroes. -/
def qlColumn (c : SparseR1CS F) : List F :=
  (List.range (traceSize c)).map fun i =>
    if i < c.nbPublic then -1
    else match c.constraints.get? (i - c.nbPublic) with
      | some con => coeffAt c con.QL
      | none => 0

/-- The `qr` column: 0 on placeholder rows, then the `QR` coefficients. -/
def qrColumn (c : SparseR1CS F) : List F :=
  (List.range (traceSize c)).map fun i =>
    if i < c.nbPublic then 0
    else match c.constraints.get? (i - c.nbPublic) with
      | some con => coeffAt c con.QR
      | none => 0

/-- The `qm` column: 0 on placeholder rows, then the `QM` coefficients. -/
def qmColumn (c : SparseR1CS F) : List F :=
  (List.range (traceSize c)).map fun i =>
    if i < c.nbPublic then 0
    else match c.constraints.get? (i - c.nbPublic) with
      | some con => coeffAt c con.QM
      | none => 0

/-- The `qo` column: 0 on placeholder rows, then the `QO` coefficients. -/
def qoColumn (c : SparseR1CS F) : List F :=
  (List.range (traceSize c)).map fun i =>
    if i < c.nbPublic then 0
    else match c.constraints.get? (i - c.nbPublic) with
      | some con => coeffAt c con.QO
      | none => 0

/-- The incomplete `qk` column: 0 on placeholder rows (to be completed by the
prover), then the `QC` coefficients. -/
def qkColumn (c : SparseR1CS F) : List F :=
  (List.range (traceSize c)).map fun i =>
    if i < c.nbPublic then 0
    else match c.constraints.get? (i - c.nbPublic) with
      | some con => coeffAt c con.QC
      | none => 0

/-- One `qcp` column (setup.go lines 213-219): 1 exactly at the positions
`nbPublic + committed` for the committed wire indices, 0 elsewhere. -/
def qcpColumn (c : SparseR1CS F) (info : PlonkCommitment) : List F :=
  (List.range (traceSize c)).map fun i =>
    if i ∈ info.Committed.map (c.nbPublic + ·) then 1 else 0

end TraceDefs

/-! ## The permutation (setup.go `buildPermutation`, lines 289-343)

The Go function fills three arrays with index loops; arrays are modelled as
total functions (`Nat → Nat` / `Nat → Int`) and each loop as a structural
recursion performing the same writes via `Function.update`. -/

section PermDefs

variable {F : Type} [Field F]

/-- `lro` of `buildPermutation`: position (in the flattened l∥r∥o support of
size `3*sizeSolution`) to variable id.  The first loop sets `lro[i] = i` for
the `nbPublic` placeholder rows of the L block; the constraint iterator sets
`lro[offset+j] = XA`, `lro[n+offset+j] = XB`, `lro[2n+offset+j] = XC`;
every position never written keeps Go's zero value 0. -/
def lroAt (c : SparseR1CS F) (i : Nat) : Nat :=
  let n := traceSize c
  let offset := c.nbPublic
  if i < n then
    if i < offset then i
    else match c.constraints.get? (i - offset) with
      | some con => con.XA
      | none => 0
  else if i < 2 * n then
    if i - n < offset then 0
    else match c.constraints.get? (i - n - offset) with
      | some con => con.XB
      | none => 0
  else
    if i - 2 * n < offset then 0
    else match c.constraints.get? (i - 2 * n - offset) with
      | some con => con.XC
      | none => 0

end PermDefs

/-- The `cycle` array (id → last position the id was seen at, `-1` initially)
after the first `m` iterations of the main loop of `buildPermutation`
(setup.go lines 326-333): iteration `i` ends with `cycle[lro[i]] = i`. -/
def cycleArr (v : Nat → Nat) : Nat → Nat → Int
  | 0 => fun _ => -1
  | m + 1 => Function.update (cycleArr v m) (v m) (m : Int)

/-- The `permutation` array after the first `m` iterations of the main loop of
`buildPermutation`: iteration `i` sets `permutation[i] = cycle[lro[i]]` when
that id was already seen, and leaves the `-1` sentinel otherwise. -/
def permArr (v : Nat → Nat) : Nat → Nat → Int
  | 0 => fun _ => -1
  | m + 1 =>
    if cycleArr v m (v m) = -1 then permArr v m
    else Function.update (permArr v m) m (cycleArr v m (v m))

/-- `trace.S` as a function of the position: the completion loop (setup.go
lines 336-340) replaces each remaining `-1` by `cycle[lro[i]]`, the last
position holding the same id. -/
def traceSFun (v : Nat → Nat) (N : Nat) (i : Nat) : Int :=
  if permArr v N i = -1 then cycleArr v N (v i) else permArr v N i

/-- `m`-fold iteration of the permutation `trace.S` starting from position `i`
(entries are nonnegative for positions `< N`, so `Int.toNat` is exact). -/
def sIter (v : Nat → Nat) (N : Nat) : Nat → Nat → Nat
  | 0, i => i
  | m + 1, i => (traceSFun v N (sIter v N m i)).toNat

/-- `trace.S` itself: the full permutation array of size `3*sizeSolution`. -/
def buildPermutation {F : Type} [Field F] (c : SparseR1CS F) : List Int :=
  (List.range (3 * traceSize c)).map fun i =>
    traceSFun (lroAt c) (3 * traceSize c) i

/-- Specification device for `buildPermutation`: the last position `< m`
holding variable id `x`, or `-1` if there is none — the value of the `cycle`
array after `m` loop iterations. -/
def lastOccBefore (v : Nat → Nat) (m x : Nat) : Int :=
  (List.range m).foldl (fun acc j => if v j = x then (j : Int) else acc) (-1)

/-- Specification device: the positions `< m` holding variable id `x`, in
increasing order. -/
def occList (v : Nat → Nat) (m x : Nat) : List Nat :=
  (List.range m).filter fun j => decide (v j = x)

/-! ## Permutation polynomials and the trace (setup.go lines 345-392) -/

section TraceBuild

variable {F : Type} [Field F]

/-- `getSupportPermutation`: the support `⟨g⟩ ∥ u·⟨g⟩ ∥ u²·⟨g⟩` on which the
permutation acts (g = small-domain generator, u = coset shift). -/
def getSupportPermutation (g u : F) (n : Nat) : List F :=
  (List.range n).map (fun i => g ^ i)
    ++ (List.range n).map (fun i => u * g ^ i)
    ++ (List.range n).map (fun i => u ^ 2 * g ^ i)

/-- The gathered trace columns (the `Trace` struct of setup.go). -/
structure TraceData (F : Type) where
  Ql : List F
  Qr : List F
  Qm : List F
  Qo : List F
  Qk : List F
  Qcp : List (List F)
  S1 : List F
  S2 : List F
  S3 : List F
  S : List Int

/-- `computePermutationPolynomials`: the three columns obtained by letting the
permutation act on the support and splitting the result
(`sXLagrange[i] = support[S[block*n+i]]`). -/
def permutationColumn (c : SparseR1CS F) (g u : F) (block : Nat) : List F :=
  let n := traceSize c
  let support := getSupportPermutation g u n
  (List.range n).map fun i =>
    support.getD (traceSFun (lroAt c) (3 * n) (block * n + i)).toNat 0

/-- `NewTrace` (setup.go lines 169-231): the selector columns, the `qcp`
columns, the permutation and the three permutation polynomials, all in
Lagrange basis over the small domain. -/
def NewTrace (c : SparseR1CS F) (g u : F) : TraceData F where
  Ql := qlColumn c
  Qr := qrColumn c
  Qm := qmColumn c
  Qo := qoColumn c
  Qk := qkColumn c
  Qcp := c.CommitmentInfo.map (qcpColumn c)
  S1 := permutationColumn c g u 0
  S2 := permutationColumn c g u 1
  S3 := permutationColumn c g u 2
  S := buildPermutation c

end TraceBuild

/-! ## Commitment scheme (external collaborator, spec section 6) -/

section CommitModel

variable {F : Type} [Field F] {G : Type} [AddCommGroup G] [Module F G]

/-- Multi-scalar multiplication `∑ p[i] • key[i]` over the commitment key. -/
def msm (p : List F) (key : List G) : G :=
  ((p.zip key).map fun ck => ck.1 • ck.2).sum

/-- Modelled from the spec: the commitment-scheme collaborator's
`kzg.Commit(coefficients, key) -> digest` (spec section 6), a multi-scalar
multiplication over the key.  It fails exactly when the coefficient vector is
empty or longer than the key (gnark-crypto `ErrInvalidPolynomialSize`): a
multi-scalar multiplication needs one key element per coefficient, and per
spec section 4.7 a coefficient/key length mismatch is an error. -/
def kzgCommit (p : List F) (key : List G) : Except String G :=
  if p.length = 0 ∨ key.length < p.length then
    .error "kzg: invalid polynomial size"
  else
    .ok (msm p key)

end CommitModel

/-! ## Setup (setup.go lines 107-269) -/

section SetupDefs

variable {F : Type} [Field F] {G : Type} [AddCommGroup G] [Module F G]

/-- `traceList` of `commitTrace` (setup.go lines 238-250): the
`currentNbPolynomials = setup_s3 + len(Qcp) + 1` trace polynomials in
canonical regular form, in slot order. `toCanon` models the external
`ToCanonical(domain).ToRegular()` basis conversion of the iop collaborator. -/
def commitTraceList (toCanon : List F → List F) (tr : TraceData F) : List (List F) :=
  [toCanon tr.Ql, toCanon tr.Qr, toCanon tr.Qm, toCanon tr.Qo, toCanon tr.Qk,
    toCanon tr.S1, toCanon tr.S2, toCanon tr.S3] ++ tr.Qcp.map toCanon

/-- The interleaved buffer of `commitTrace` (setup.go lines 255-263): size
`t*size`, written by the loop `buf[i*t+j] = traceList[j][i]` for `i < size`
and `j < currentNbPolynomials`; every slot not written keeps 0.  Row `i` of
the loop is the `t` consecutive entries starting at `i*t`. -/
def commitTraceBuf (tl : List (List F)) (t size : Nat) : List F :=
  (List.range size).flatMap fun i =>
    (List.range t).map fun j => (tl.getD j []).getD i 0

/-- `commitTrace` (setup.go lines 235-269): interleave the trace polynomials
into one buffer and KZG-commit it once, yielding `vk.Qpublic`. -/
def commitTrace (toCanon : List F → List F) (tr : TraceData F) (size : Nat)
    (srsG1 : List G) : Except String G :=
  kzgCommit
    (commitTraceBuf (commitTraceList toCanon tr) (foldingT tr.Qcp.length) size)
    srsG1

/-- The fields of the verifying key that the claims are about. -/
structure SetupVk (G : Type) where
  Size : Nat
  Qpublic : G

/-- `Setup` (setup.go lines 107-152): reject a domain of cardinality `< 2`,
reject an SRS shorter than `cardinality + 3`, build the trace, and commit it
(`commitTrace`), propagating the commitment error. -/
def Setup (c : SparseR1CS F) (srsG1 : List G) (g u : F)
    (toCanon : List F → List F) : Except String (SetupVk G) :=
  if domainCardinality c < 2 then
    .error "circuit has too few constraints; unsupported by the current implementation"
  else if srsG1.length < domainCardinality c + 3 then
    .error "kzg srs is too small"
  else
    match commitTrace toCanon (NewTrace c g u) (domainCardinality c) srsG1 with
    | .error e => .error e
    | .ok d => .ok ⟨domainCardinality c, d⟩

end SetupDefs

/-! ## Blinding polynomials (prove.go lines 61-79, 252-259, 1093-1108) -/

section BlindingDefs

variable {F : Type} [Field F]

/-- The configured blinding orders (prove.go lines 69-79): all deactivated. -/
def order_blinding_L : Int := -1
def order_blinding_R : Int := -1
def order_blinding_O : Int := -1
def order_blinding_Z : Int := -1

/-- `getRandomPolynomial` (prove.go lines 1093-1108), `rand` modelling the
stream of `SetRandom` draws.  The Go body declares `var a []fr.Element` and,
in the `n == -1` branch, writes `a := make([]fr.Element, 1)` — the `:=`
declares a NEW `a` shadowing the outer one, so the outer `a` stays nil and
`iop.NewPolynomial(&a, …)` receives the empty coefficient slice; the inner
single-zero slice is dropped.  In the other branch `a = make(...)` assigns the
outer `a`, which receives `n+1` random coefficients. -/
def getRandomPolynomial (n : Int) (rand : Nat → F) : List F :=
  if n = -1 then
    ([] : List F)
  else
    (List.range (n + 1).toNat).map rand

/-- `initBlindingPolynomials` (prove.go lines 252-259): the four blinding
polynomials `bp[id_Bl], bp[id_Br], bp[id_Bo], bp[id_Bz]`. -/
def initBlindingPolynomials (rand : Nat → F) : List (List F) :=
  [getRandomPolynomial order_blinding_L rand,
   getRandomPolynomial order_blinding_R rand,
   getRandomPolynomial order_blinding_O rand,
   getRandomPolynomial order_blinding_Z rand]

end BlindingDefs

/-! ## commitToLRO (prove.go lines 386-418) -/

section LRODefs

variable {G : Type} [AddCommGroup G]

/-- Models the digest written into `proof.LROEntangled` by `commitToLRO`
(prove.go lines 395-417).  The three column commitments `l, r, o` are computed
in errgroup goroutines, but the sum `proof.LROEntangled.Add(&l,&r).Add(…,&o)`
at line 415 runs on the calling goroutine BEFORE `g.Wait()` at line 417, so
each of `l, r, o` is read either after its goroutine's write or while it still
holds the zero value, depending on the schedule.  `doneL/doneR/doneO` say
which goroutines happen to have completed before the sum executes; the
dependency structure of the function guarantees nothing about them. -/
def commitToLRO_LROEntangled (cl cr co : G) (doneL doneR doneO : Bool) : G :=
  ((if doneL then cl else 0) + (if doneR then cr else 0)) + (if doneO then co else 0)

end LRODefs

/-! ## Blinding scaling inside computeNumerator (prove.go lines 879-996, 1025-1035) -/

section NumeratorDefs

variable {F : Type} [Field F]

/-- The accumulator loop shared by the forward blinding scaling
(prove.go lines 885-892, `acc := tmp; cq[j] *= acc; acc *= shifter`) and by
`scalePowers` (lines 1027-1035, `acc := 1`): entry `j` is multiplied by
`acc₀ * s^j`. -/
def mulAcc : List F → F → F → List F
  | [], _, _ => []
  | c :: cs, acc, s => c * acc :: mulAcc cs (acc * s) s

/-- `scalePowers` (prove.go lines 1025-1035): `p <- ⟨p, (1, w, …, wⁿ)⟩`. -/
def scalePowers (cq : List F) (w : F) : List F := mulAcc cq 1 w

/-- The effect on one blinding polynomial of the `rho` coset iterations of
`computeNumerator` (prove.go lines 879-960): at iteration for shifter `s`,
`coset` is multiplied by `s`, `tmp = coset^n - 1`, every coefficient `j` is
multiplied by `tmp * s^j` (forward scaling, lines 885-892), the constraint
evaluation reads the polynomial, and afterwards every coefficient is
multiplied by `tmp⁻¹` (lines 952-959, `tmp.Inverse(&tmp)` then `cq[j] *= tmp`). -/
def blindingCosetLoop (n : Nat) : List F → F → List F → List F
  | [], _, cq => cq
  | s :: rest, coset, cq =>
    let coset' := coset * s
    let tmp := coset' ^ n - 1
    blindingCosetLoop n rest coset' ((mulAcc cq tmp s).map (· * tmp⁻¹))

/-- The complete transformation a blinding polynomial undergoes in
`computeNumerator`: the `rho` coset passes (starting from `coset = 1`,
line 824) followed by the final scale-back `scalePowers(q, cs)` with
`cs = (shifters[0]*…*shifters[rho-1])⁻¹` (lines 969-987). -/
def blindingRoundtrip (n : Nat) (shifters : List F) (cq : List F) : List F :=
  scalePowers (blindingCosetLoop n shifters 1 cq) (shifters.prod)⁻¹

end NumeratorDefs

/-! ## Quotient slices and evaluation (prove.go lines 636-649, 1166-1196) -/

section QuotientDefs

variable {F : Type} [Field F]

/-- `s.h1()` (prove.go lines 636-639): the slice `[0, n+2)` of the quotient's
coefficients, `n = domain0.Cardinality`. -/
def h1Slice (n : Nat) (h : List F) : List F := h.take (n + 2)

/-- `s.h2()` (prove.go lines 641-644): the slice `[n+2, 2(n+2))`. -/
def h2Slice (n : Nat) (h : List F) : List F := (h.drop (n + 2)).take (n + 2)

/-- `s.h3()` (prove.go lines 646-649): the slice `[2(n+2), 3(n+2))`. -/
def h3Slice (n : Nat) (h : List F) : List F := (h.drop (2 * (n + 2))).take (n + 2)

/-- Evaluation of a coefficient list as a polynomial (Horner). -/
def evalPoly (p : List F) (x : F) : F := p.foldr (fun c acc => c + x * acc) 0

end QuotientDefs

/-! ## Blinded coefficients and batch opening (prove.go lines 651-731, 1066-1075) -/

section OpeningDefs

variable {F : Type} [Field F]

/-- `getBlindedCoefficients` (prove.go lines 1066-1075): append the blinding
coefficients `cbp` to `cp` and subtract `cbp[i]` from entry `i` for
`i < len(cbp)`, yielding the coefficients of `p(X) + b(X)·(Xⁿ-1)`,
`n = len(cp)`. -/
def getBlindedCoefficients (cp cbp : List F) : List F :=
  let appended := cp ++ cbp
  appended.zipWith (· - ·) (cbp ++ List.replicate (appended.length - cbp.length) 0)

/-- The prover-instance state read by `batchOpening` (prove.go lines 651-731):
every polynomial as its canonical regular coefficient list at that point of
the pipeline, plus the challenge `ζ` and the small-domain generator `ω`. -/
structure ProverState (F : Type) where
  n : Nat
  ql : List F
  qr : List F
  qm : List F
  qo : List F
  qk : List F
  s1 : List F
  s2 : List F
  s3 : List F
  qcp : List (List F)
  l : List F
  r : List F
  o : List F
  z : List F
  bl : List F
  br : List F
  bo : List F
  bz : List F
  hq : List F
  cCommitments : List (List F)
  zeta : F
  gen : F

/-- `polysToOpen[0]` (prove.go lines 683-705): the loop fills the length-`t`
array slot by slot — indices `0..7` with the eight setup polynomials, indices
`setup_s3+1+i` (`i < q`) with the `qcp`, indices `prover_l+q .. prover_h_3+q`
with blinded L, R, O, Z and the three quotient chunks, and indices
`number_polynomials+q+i` (`i < q`) with the custom-gate witness polynomials.
These ranges are disjoint and (with `|cCommitments| = |qcp| = q`) tile
`[0, t)` exactly, so the filled array is this concatenation. -/
def polysToOpenSet1 (s : ProverState F) : List (List F) :=
  [s.ql, s.qr, s.qm, s.qo, s.qk, s.s1, s.s2, s.s3]
    ++ s.qcp
    ++ [getBlindedCoefficients s.l s.bl, getBlindedCoefficients s.r s.br,
        getBlindedCoefficients s.o s.bo, getBlindedCoefficients s.z s.bz,
        h1Slice s.n s.hq, h2Slice s.n s.hq, h3Slice s.n s.hq]
    ++ s.cCommitments

/-- `polysToOpen` of `batchOpening` (prove.go lines 681-708): the first set is
the `t = getNextDivisorRMinusOne` slots above, the second set holds only the
blinded `Z`. -/
def polysToOpen (s : ProverState F) : List (List (List F)) :=
  [polysToOpenSet1 s, [getBlindedCoefficients s.z s.bz]]

/-- `points` of `batchOpening` (prove.go lines 710-724): set 1 is opened at
`ζ`, set 2 at `ω·ζᵗ` (`omegaZetaT.Exp(zeta, t).Mul(…, &domain0.Generator)`). -/
def openingPoints (s : ProverState F) : List (List F) :=
  let t := getNextDivisorRMinusOne s.qcp.length
  [[s.zeta], [s.zeta ^ t * s.gen]]

end OpeningDefs

/-! ## Sub-key strides (prove.go lines 297-308, 477-500, 1118-1164) -/

section StrideDefs

variable {F : Type} [Field F] {G : Type} [AddCommGroup G] [Module F G]

/-- The sub proving key `subPk.G1[i] = key[i*t + id]` used by
`commitToEntangledPolyAndBlinding` (prove.go lines 483-489), by `bsb22Hint`
(lines 299-305) and by `commitToQuotient` (lines 1128-1156): entanglement is
implemented purely by which key elements are used. -/
def subKeyG1 (key : List G) (t id deg : Nat) : List G :=
  (List.range deg).map fun i => key.getD (i * t + id) 0

/-- The stride used by `commitToEntangledPolyAndBlinding` (prove.go line 484)
for the entangled commitments of L, R, O and Z: `getNextDivisorRMinusOne`. -/
def commitToEntangledStride (nbQcp : Nat) : Nat := getNextDivisorRMinusOne nbQcp

/-- The stride used by `commitToQuotient` (prove.go line 1120) for the
H₁, H₂, H₃ sub-keys: `number_polynomials + 2*len(vk.Qcp)`. -/
def commitToQuotientStride (nbQcp : Nat) : Nat := number_polynomials + 2 * nbQcp

/-- The stride used by `commitTrace` (setup.go line 255) for the interleaved
setup commitment: `number_polynomials + 2*len(trace.Qcp)`. -/
def commitTraceStride (nbQcp : Nat) : Nat := foldingT nbQcp

/-- The exponent of `ζ` in the second opening point `ω·ζᵗ` of `batchOpening`
(prove.go lines 716-719). -/
def batchOpeningExponent (nbQcp : Nat) : Nat := getNextDivisorRMinusOne nbQcp

end StrideDefs

/-! ## Fiat-Shamir transcript events (prove.go lines 216, 420-453, 502-515) -/

/-- One interaction with the Fiat-Shamir transcript collaborator: binding a
group element (a commitment) or other data to a challenge's slot, or deriving
a challenge. -/
inductive FSEvent (G D : Type) where
  | bindPoint (challenge : String) (point : G)
  | bindData (challenge : String) (data : D)
  | compute (challenge : String)
deriving DecidableEq

section TranscriptDefs

variable {G D : Type}

/-- Modelled from the spec: `deriveRandomness(fs, name, points...)` is defined
in repository code outside the excerpt.  Per spec section 4.3 each challenge
derivation binds the listed commitments to the challenge's slot and then
derives the challenge from the transcript. -/
def deriveRandomnessEvents (name : String) (points : List G) : List (FSEvent G D) :=
  points.map (.bindPoint name) ++ [.compute name]

/-- Modelled from the spec: `bindPublicData(fs, "gamma", vk, publicWitness)`
is defined in repository code outside the excerpt.  Per spec section 4.3, all
verifying-key material and all public-input values are bound before γ is
derived. -/
def bindPublicDataEvents (name : String) (vkData : D) (publics : List D) :
    List (FSEvent G D) :=
  (vkData :: publics).map (.bindData name)

/-- The transcript events of `deriveGammaAndBeta` (prove.go lines 420-453):
bind the public data, wait for the L∥R∥O commitment, derive γ from it, then
compute β with no extra binding (`fs.ComputeChallenge("beta")`). -/
def deriveGammaAndBetaEvents (vkData : D) (publics : List D) (lro : G) :
    List (FSEvent G D) :=
  bindPublicDataEvents "gamma" vkData publics
    ++ deriveRandomnessEvents "gamma" [lro]
    ++ [.compute "beta"]

/-- The transcript events of `deriveAlpha` (prove.go lines 502-510): the
Bsb22 commitments in order, then the entangled Z commitment last. -/
def deriveAlphaEvents (bsb : List G) (zEntangled : G) : List (FSEvent G D) :=
  deriveRandomnessEvents "alpha" (bsb ++ [zEntangled])

/-- The transcript events of `deriveZeta` (prove.go lines 512-515). -/
def deriveZetaEvents (hEntangled : G) : List (FSEvent G D) :=
  deriveRandomnessEvents "zeta" [hEntangled]

/-- The full transcript interaction of one proving run, in execution order:
γ and β are derived by `deriveGammaAndBeta` (after `chLRO`); `deriveAlpha`
runs inside `computeQuotient` after `chZ`, whose producer waited on
`chGammaBeta`; `deriveZeta` runs after the quotient commitment.  The channel
dependencies hence serialize the four derivations in this order. -/
def proverTranscriptEvents (vkData : D) (publics : List D)
    (lro zEntangled hEntangled : G) (bsb : List G) : List (FSEvent G D) :=
  deriveGammaAndBetaEvents vkData publics lro
    ++ deriveAlphaEvents bsb zEntangled
    ++ deriveZetaEvents hEntangled

/-- The challenge name an event derives, if any. -/
def challengeName : FSEvent G D → Option String
  | .compute name => some name
  | _ => none

/-- The names of the challenges derived from the transcript, in order. -/
def computedChallenges (events : List (FSEvent G D)) : List String :=
  events.filterMap challengeName

end TranscriptDefs

/-- Concrete 7-element prime field used to instantiate the embedding on
concrete inputs. -/
instance : Fact (Nat.Prime 7) := ⟨by norm_num⟩

/-- A concrete two-gate circuit (no public inputs, no custom gates) used to
evaluate the embedding: wires 1,2,3 in gate one and 1,1,2 in gate two. -/
def exampleCircuit : SparseR1CS (ZMod 7) where
  Coefficients := [0, 1]
  nbPublic := 0
  nbSecret := 1
  NbInternalVariables := 3
  constraints := [⟨0, 1, 0, 1, 0, 1, 2, 3⟩, ⟨1, 1, 1, 1, 1, 1, 1, 2⟩]
  CommitmentInfo := []

/-- A concrete prover state (no custom gates) with pairwise distinct
polynomial contents, used to evaluate `batchOpening`'s polynomial sets. -/
def exampleProverState : ProverState (ZMod 7) where
  n := 2
  ql := [1, 0]
  qr := [2, 0]
  qm := [3, 0]
  qo := [4, 0]
  qk := [5, 0]
  s1 := [6, 0]
  s2 := [0, 1]
  s3 := [0, 2]
  qcp := []
  l := [0, 3]
  r := [0, 4]
  o := [0, 5]
  z := [0, 6]
  bl := []
  br := []
  bo := []
  bz := [1]
  hq := [1, 1, 1, 1, 2, 2, 2, 2, 3, 3, 3, 3, 0, 0, 0, 0]
  cCommitments := []
  zeta := 3
  gen := 5

/-! # Theorems -/

/-! ## Claim C3 — commitToLRO and the completion order of its goroutines -/

/-- Claim C3 (code evaluated at the failing schedule): `commitToLRO` computes
`proof.LROEntangled` from `l, r, o` at prove.go line 415, BEFORE `g.Wait()`
joins the three commitment goroutines at line 417.  Under a schedule where no
goroutine has completed yet, the digest stored in the proof is the sum of
three zero values instead of the three column commitments; only when all
three writes happen to be complete does it equal their sum.  (Contrast with
`commitToQuotient`, prove.go lines 1158-1161, which correctly waits before
summing.) -/
theorem commitToLRO_sum_before_wait :
    commitToLRO_LROEntangled (G := ℤ) 1 2 4 false false false = 0 ∧
    (0 : ℤ) ≠ 1 + 2 + 4 ∧
    commitToLRO_LROEntangled (G := ℤ) 1 2 4 true true true = 1 + 2 + 4 :=
  ⟨rfl, by decide, rfl⟩

/-! ## Claim C4 — getRandomPolynomial and the blinding polynomials -/

/-- Claim C4 (code evaluated at the failing input `n = -1`): because the
`n == -1` branch of `getRandomPolynomial` shadows `a` (`a := make(...)`), the
returned polynomial has an EMPTY coefficient vector, not the single zero
coefficient the claim describes; with the configured blinding orders all
`-1`, every one of the four blinding polynomials built by
`initBlindingPolynomials` is that empty polynomial. -/
theorem getRandomPolynomial_shadowed_empty :
    getRandomPolynomial (F := ZMod 7) (-1) (fun _ => 0) = [] ∧
    getRandomPolynomial (F := ZMod 7) (-1) (fun _ => 0) ≠ [0] ∧
    initBlindingPolynomials (F := ZMod 7) (fun _ => 0) = [[], [], [], []] :=
  ⟨rfl, by decide, rfl⟩

/-! ## Claim C10 — agreement of the folding strides -/

/-- Claim C10: the stride used by `commitToEntangledPolyAndBlinding` for the
sub-keys of L, R, O and Z equals the stride used by `commitToQuotient` for
the H₁, H₂, H₃ sub-keys, equals the stride used by `commitTrace` for the
setup commitment, equals the exponent of ζ in the second opening point
`ω·ζᵗ`; the common value is `number_polynomials + 2·|Qcp| = 15 + 2·|Qcp|`,
so equal strides select the same sub-key and the opening point uses it. -/
theorem folding_strides_agree {F : Type} [Field F] {G : Type} [AddCommGroup G]
    [Module F G] (nbQcp : Nat) (key : List G) (id deg : Nat) (s : ProverState F) :
    commitToEntangledStride nbQcp = foldingT nbQcp ∧
    commitToQuotientStride nbQcp = foldingT nbQcp ∧
    commitTraceStride nbQcp = foldingT nbQcp ∧
    batchOpeningExponent nbQcp = foldingT nbQcp ∧
    foldingT nbQcp = 15 + 2 * nbQcp ∧
    subKeyG1 key (commitToEntangledStride nbQcp) id deg
      = subKeyG1 key (commitTraceStride nbQcp) id deg ∧
    openingPoints s = [[s.zeta], [s.zeta ^ foldingT s.qcp.length * s.gen]] :=
  ⟨rfl, rfl, rfl, rfl, rfl, rfl, rfl⟩

/-! ## Claim C9 — Fiat-Shamir challenge derivation order and bindings -/

/-- Claim C9: the prover's transcript interaction derives γ, β, α, ζ in this
fixed order with exactly these bindings — all verifying-key material and
public-input values, then the entangled L∥R∥O commitment, are bound before γ;
β is the next transcript output with no extra binding; α binds the Bsb22
commitments followed by the entangled Z commitment; ζ binds the entangled
quotient commitment. -/
theorem transcript_challenge_bindings {G D : Type} (vkData : D)
    (publics : List D) (lro z h : G) (bsb : List G) :
    proverTranscriptEvents vkData publics lro z h bsb =
      ((vkData :: publics).map (FSEvent.bindData "gamma"))
        ++ [FSEvent.bindPoint "gamma" lro, FSEvent.compute "gamma",
            FSEvent.compute "beta"]
        ++ (bsb.map (FSEvent.bindPoint "alpha")
            ++ [FSEvent.bindPoint "alpha" z, FSEvent.compute "alpha"])
        ++ [FSEvent.bindPoint "zeta" h, FSEvent.compute "zeta"] ∧
    computedChallenges (proverTranscriptEvents vkData publics lro z h bsb) =
      ["gamma", "beta", "alpha", "zeta"] := by
  constructor
  · simp [proverTranscriptEvents, deriveGammaAndBetaEvents, bindPublicDataEvents,
      deriveRandomnessEvents, deriveAlphaEvents, deriveZetaEvents]
  · have hnone : ∀ {α : Type} (l : List α) (f : α → FSEvent G D)
        (hf : ∀ a, challengeName (f a) = none),
        List.filterMap challengeName (l.map f) = [] := by
      intro α l f hf
      induction l with
      | nil => rfl
      | cons a t ih => simpa [List.filterMap_cons, hf a] using ih
    simp only [proverTranscriptEvents, deriveGammaAndBetaEvents,
      bindPublicDataEvents, deriveRandomnessEvents, deriveAlphaEvents,
      deriveZetaEvents, computedChallenges, List.filterMap_append,
      List.append_assoc, List.map_cons, List.map_append]
    rw [show ((FSEvent.bindData (G := G) "gamma" vkData :: publics.map (FSEvent.bindData "gamma"))) =
        ((vkData :: publics).map (FSEvent.bindData "gamma")) by simp]
    rw [hnone ((vkData :: publics)) (FSEvent.bindData "gamma") (fun a => rfl),
      hnone bsb (FSEvent.bindPoint "alpha") (fun a => rfl)]
    rfl

/-! ## Claim C6 — the blinding scaling of computeNumerator is exactly undone -/

theorem mulAcc_length {F : Type} [Field F] (cq : List F) (a s : F) :
    (mulAcc cq a s).length = cq.length := by
  induction cq generalizing a with
  | nil => rfl
  | cons c cs ih => simp [mulAcc, ih]

theorem mulAcc_mul_comm {F : Type} [Field F] (cq : List F) (a b s : F) :
    mulAcc cq (a * b) s = (mulAcc cq a s).map (· * b) := by
  induction cq generalizing a with
  | nil => rfl
  | cons c cs ih =>
    simp only [mulAcc, List.map_cons, List.cons.injEq]
    refine ⟨by ring, ?_⟩
    rw [show a * b * s = a * s * b by ring, ih]

theorem mulAcc_mulAcc {F : Type} [Field F] (cq : List F) (a1 a2 s1 s2 : F) :
    mulAcc (mulAcc cq a1 s1) a2 s2 = mulAcc cq (a1 * a2) (s1 * s2) := by
  induction cq generalizing a1 a2 with
  | nil => rfl
  | cons c cs ih =>
    simp only [mulAcc, List.cons.injEq]
    refine ⟨by ring, ?_⟩
    rw [ih, show a1 * s1 * (a2 * s2) = a1 * a2 * (s1 * s2) by ring]

theorem mulAcc_one_one {F : Type} [Field F] (cq : List F) : mulAcc cq 1 1 = cq := by
  induction cq with
  | nil => rfl
  | cons c cs ih => simp [mulAcc, ih]

theorem mulAcc_map_inv {F : Type} [Field F] (cq : List F) (tmp s : F)
    (h : tmp ≠ 0) : (mulAcc cq tmp s).map (· * tmp⁻¹) = scalePowers cq s := by
  rw [← mulAcc_mul_comm, mul_inv_cancel₀ h, scalePowers]

theorem blindingCosetLoop_eq {F : Type} [Field F] (n : Nat) (shifters : List F)
    (c0 : F) (cq : List F)
    (h : ∀ i, i < shifters.length → (c0 * (shifters.take (i + 1)).prod) ^ n - 1 ≠ 0) :
    blindingCosetLoop n shifters c0 cq = scalePowers cq shifters.prod := by
  induction shifters generalizing c0 cq with
  | nil => simp [blindingCosetLoop, scalePowers, mulAcc_one_one]
  | cons s rest ih =>
    have h0 : (c0 * s) ^ n - 1 ≠ 0 := by simpa using h 0 (by simp)
    simp only [blindingCosetLoop]
    rw [mulAcc_map_inv _ _ _ h0]
    rw [ih (c0 * s) (scalePowers cq s) ?_]
    · rw [scalePowers, scalePowers, scalePowers, mulAcc_mulAcc, one_mul,
        List.prod_cons]
    · intro i hi
      have := h (i + 1) (by simpa using Nat.succ_lt_succ hi)
      simpa [mul_assoc] using this

/-- Claim C6: over exact field arithmetic the in-place scaling of the blinding
polynomials inside `computeNumerator` is exactly undone — the per-coset
multiplication of coefficient `j` by `((coset)ⁿ - 1)·shifterʲ`, the per-coset
multiplication by `((coset)ⁿ - 1)⁻¹`, and the final `scalePowers` by the
inverse of the product of all shifters compose to the identity, provided each
`(coset)ⁿ - 1` is nonzero and the shifters' product is nonzero (both hold for
the FFT-domain generators used by the prover). -/
theorem computeNumerator_blinding_restore_exact {F : Type} [Field F] (n : Nat)
    (shifters cq : List F)
    (hc : ∀ i, i < shifters.length → ((shifters.take (i + 1)).prod) ^ n - 1 ≠ 0)
    (hp : shifters.prod ≠ 0) :
    blindingRoundtrip n shifters cq = cq := by
  unfold blindingRoundtrip
  rw [blindingCosetLoop_eq n shifters 1 cq (by intro i hi; simpa using hc i hi)]
  rw [scalePowers, scalePowers, mulAcc_mulAcc, one_mul, mul_inv_cancel₀ hp,
    mulAcc_one_one]

/-- Witness for C6 at a concrete input: `n = 2`, shifters `[2, 2]` and
coefficients `[1, 2, 3]` over `ZMod 7` satisfy both hypotheses, and the
round trip restores the coefficients exactly. -/
theorem computeNumerator_blinding_restore_exact_witness :
    (∀ i, i < ([(2 : ZMod 7), 2]).length →
      ((([(2 : ZMod 7), 2]).take (i + 1)).prod) ^ 2 - 1 ≠ 0) ∧
    ([(2 : ZMod 7), 2]).prod ≠ 0 ∧
    blindingRoundtrip 2 [(2 : ZMod 7), 2] [1, 2, 3] = [1, 2, 3] :=
  ⟨by decide, by decide,
    computeNumerator_blinding_restore_exact 2 _ _ (by decide) (by decide)⟩

/-! ## nextPowerOfTwo: characterization via Nat.clog -/

theorem clog2Aux_eq_clog (fuel v : Nat) (h : v ≤ fuel) :
    clog2Aux fuel v = Nat.clog 2 v := by
  induction fuel generalizing v with
  | zero =>
    have hv : v = 0 := Nat.le_zero.mp h
    subst hv
    simp [clog2Aux, Nat.clog_of_right_le_one]
  | succ f ih =>
    by_cases h1 : v ≤ 1
    · simp [clog2Aux, h1, Nat.clog_of_right_le_one h1]
    · have h2 : 2 ≤ v := by omega
      have hfuel : (v + 1) / 2 ≤ f := by omega
      rw [clog2Aux, if_neg h1, ih ((v + 1) / 2) hfuel,
        Nat.clog_of_two_le (b := 2) (n := v) (by norm_num) h2,
        show v + 2 - 1 = v + 1 by omega]

theorem clog2_eq_clog (v : Nat) : clog2 v = Nat.clog 2 v :=
  clog2Aux_eq_clog v v le_rfl

theorem le_nextPowerOfTwo (v : Nat) : v ≤ nextPowerOfTwo v := by
  unfold nextPowerOfTwo
  split
  · exact le_rfl
  · rw [clog2_eq_clog]
    exact Nat.le_pow_clog (by norm_num) v

theorem nextPowerOfTwo_two_mul (v : Nat) (hv : 1 ≤ v) :
    nextPowerOfTwo (2 * v) = 2 * nextPowerOfTwo v := by
  unfold nextPowerOfTwo
  rw [if_neg (by omega), clog2_eq_clog]
  by_cases h1 : v ≤ 1
  · have hv1 : v = 1 := by omega
    subst hv1
    rw [if_pos le_rfl]
    have hc : Nat.clog 2 (2 * 1) = 1 :=
      le_antisymm ((Nat.le_pow_iff_clog_le (by norm_num)).mp (by norm_num))
        (Nat.clog_pos (by norm_num) (by norm_num))
    rw [hc]
    norm_num
  · push_neg at h1
    rw [if_neg (by omega), clog2_eq_clog]
    have hc : Nat.clog 2 (2 * v) = Nat.clog 2 v + 1 := by
      apply le_antisymm
      · rw [← Nat.le_pow_iff_clog_le (by norm_num)]
        calc 2 * v ≤ 2 * 2 ^ Nat.clog 2 v :=
              Nat.mul_le_mul_left 2 (Nat.le_pow_clog (by norm_num) v)
          _ = 2 ^ (Nat.clog 2 v + 1) := by rw [pow_succ]; ring
      · have hlt : 2 ^ (Nat.clog 2 v - 1) < v :=
          Nat.pow_pred_clog_lt_self (by norm_num) h1
        have hpos : 0 < Nat.clog 2 v := Nat.clog_pos (by norm_num) h1
        have hlt2 : 2 ^ Nat.clog 2 v < 2 * v := by
          have he : 2 ^ Nat.clog 2 v = 2 * 2 ^ (Nat.clog 2 v - 1) := by
            rw [← pow_succ']
            congr 1
            omega
          omega
        have := (Nat.pow_lt_iff_lt_clog (b := 2) (x := 2 * v) (by norm_num)
          (y := Nat.clog 2 v)).mp hlt2
        omega
    rw [hc, pow_succ]
    ring

/-! ## Claim C7 — quotient slicing and large-domain sizing -/

theorem domain1Card_eq (s : Nat) (hs : 1 ≤ s) :
    domain1Card s = (if s < 6 then 8 else 4) * domain0Card s := by
  unfold domain1Card domain0Card
  by_cases h6 : s < 6
  · rw [if_pos h6, if_pos h6,
      show 8 * s = 2 * (2 * (2 * s)) by ring,
      nextPowerOfTwo_two_mul _ (by omega), nextPowerOfTwo_two_mul _ (by omega),
      nextPowerOfTwo_two_mul _ hs]
    ring
  · rw [if_neg h6, if_neg h6,
      show 4 * s = 2 * (2 * s) by ring,
      nextPowerOfTwo_two_mul _ (by omega), nextPowerOfTwo_two_mul _ hs]
    ring

theorem three_chunks_le_domain1 (s : Nat) (hs : 2 ≤ s) :
    3 * (domain0Card s + 2) ≤ domain1Card s := by
  rw [domain1Card_eq s (by omega)]
  have hge : s ≤ domain0Card s := le_nextPowerOfTwo s
  by_cases h6 : s < 6
  · rw [if_pos h6]
    omega
  · rw [if_neg h6]
    omega

theorem evalPoly_append {F : Type} [Field F] (a b : List F) (x : F) :
    evalPoly (a ++ b) x = evalPoly a x + x ^ a.length * evalPoly b x := by
  induction a with
  | nil => simp [evalPoly]
  | cons c t ih =>
    simp only [List.cons_append, evalPoly, List.foldr_cons, List.length_cons] at *
    rw [ih, pow_succ]
    ring

theorem evalPoly_all_zero {F : Type} [Field F] (l : List F) (x : F)
    (h : ∀ c ∈ l, c = 0) : evalPoly l x = 0 := by
  induction l with
  | nil => rfl
  | cons c t ih =>
    have hc : c = 0 := h c (by simp)
    simp only [evalPoly, List.foldr_cons] at *
    rw [hc, ih (fun d hd => h d (by simp [hd]))]
    ring

theorem slices_concat {F : Type} [Field F] (n : Nat) (h : List F) :
    h1Slice n h ++ h2Slice n h ++ h3Slice n h = h.take (3 * (n + 2)) := by
  rw [show 3 * (n + 2) = (n + 2) + ((n + 2) + (n + 2)) by ring,
    List.take_add h (n + 2) ((n + 2) + (n + 2)),
    List.take_add (h.drop (n + 2)) (n + 2) (n + 2),
    List.drop_drop (n + 2) (n + 2) h,
    show (n + 2) + (n + 2) = 2 * (n + 2) by ring]
  simp [h1Slice, h2Slice, h3Slice, List.append_assoc]

/-- Claim C7: for every circuit accepted by Setup (system size `s ≥ 2`), the
quotient computed by `divideByXMinusOne` — which works in place on the
large-domain buffer, so its coefficient count equals the large-domain
cardinality — has at least `3(n+2)` coefficients (`n` = small-domain
cardinality); `h1, h2, h3` are the disjoint equal-length slices `[0, n+2)`,
`[n+2, 2(n+2))`, `[2(n+2), 3(n+2))` of it; and, the quotient having degree
`< 3(n+2)` (its coefficients beyond `3(n+2)` vanish),
`H(X) = H₁(X) + X^{n+2}·H₂(X) + X^{2(n+2)}·H₃(X)`.  The large domain is `8×`
the (power-of-two-rounded) system size for `s < 6` and `4×` otherwise, which
makes the slice bounds valid. -/
theorem quotient_three_chunks {F : Type} [Field F] (s : Nat) (hs : 2 ≤ s)
    (hcoeffs : List F) (hlen : hcoeffs.length = domain1Card s) (x : F)
    (hzero : ∀ c ∈ hcoeffs.drop (3 * (domain0Card s + 2)), c = 0) :
    3 * (domain0Card s + 2) ≤ hcoeffs.length ∧
    (h1Slice (domain0Card s) hcoeffs).length = domain0Card s + 2 ∧
    (h2Slice (domain0Card s) hcoeffs).length = domain0Card s + 2 ∧
    (h3Slice (domain0Card s) hcoeffs).length = domain0Card s + 2 ∧
    h1Slice (domain0Card s) hcoeffs ++ h2Slice (domain0Card s) hcoeffs
        ++ h3Slice (domain0Card s) hcoeffs
      = hcoeffs.take (3 * (domain0Card s + 2)) ∧
    evalPoly hcoeffs x =
      evalPoly (h1Slice (domain0Card s) hcoeffs) x
        + x ^ (domain0Card s + 2) * evalPoly (h2Slice (domain0Card s) hcoeffs) x
        + x ^ (2 * (domain0Card s + 2))
            * evalPoly (h3Slice (domain0Card s) hcoeffs) x ∧
    domain1Card s = (if s < 6 then 8 else 4) * domain0Card s := by
  set n := domain0Card s with hn
  have hbound : 3 * (n + 2) ≤ hcoeffs.length := by
    rw [hlen]
    exact three_chunks_le_domain1 s hs
  have hl1 : (h1Slice n hcoeffs).length = n + 2 := by
    simp only [h1Slice, List.length_take]
    omega
  have hl2 : (h2Slice n hcoeffs).length = n + 2 := by
    simp only [h2Slice, List.length_take, List.length_drop]
    omega
  have hl3 : (h3Slice n hcoeffs).length = n + 2 := by
    simp only [h3Slice, List.length_take, List.length_drop]
    omega
  refine ⟨hbound, hl1, hl2, hl3, slices_concat n hcoeffs, ?_, domain1Card_eq s (by omega)⟩
  have hsplit : hcoeffs =
      (h1Slice n hcoeffs ++ h2Slice n hcoeffs ++ h3Slice n hcoeffs)
        ++ hcoeffs.drop (3 * (n + 2)) := by
    rw [slices_concat n hcoeffs, List.take_append_drop]
  conv_lhs => rw [hsplit]
  rw [evalPoly_append, evalPoly_append, evalPoly_append,
    evalPoly_all_zero _ x hzero, List.length_append, hl1, hl2]
  ring

/-- Witness for C7 at a concrete input: system size `s = 2`, so `n = 2` and
the large domain has 16 points; a quotient buffer whose entries from index
`3(n+2) = 12` on are zero satisfies the hypotheses, and the three chunks
reassemble it at `x = 3` over `ZMod 7`. -/
theorem quotient_three_chunks_witness :
    (2 ≤ 2) ∧
    ([1, 2, 3, 4, 5, 6, 1, 2, 3, 4, 5, 0, 0, 0, 0, 0] : List (ZMod 7)).length
      = domain1Card 2 ∧
    (∀ c ∈ ([1, 2, 3, 4, 5, 6, 1, 2, 3, 4, 5, 0, 0, 0, 0, 0] : List (ZMod 7)).drop
        (3 * (domain0Card 2 + 2)), c = 0) ∧
    evalPoly ([1, 2, 3, 4, 5, 6, 1, 2, 3, 4, 5, 0, 0, 0, 0, 0] : List (ZMod 7)) 3 =
      evalPoly (h1Slice (domain0Card 2)
          [1, 2, 3, 4, 5, 6, 1, 2, 3, 4, 5, 0, 0, 0, 0, 0]) 3
        + 3 ^ (domain0Card 2 + 2) * evalPoly (h2Slice (domain0Card 2)
            [1, 2, 3, 4, 5, 6, 1, 2, 3, 4, 5, 0, 0, 0, 0, 0]) 3
        + 3 ^ (2 * (domain0Card 2 + 2)) * evalPoly (h3Slice (domain0Card 2)
            [1, 2, 3, 4, 5, 6, 1, 2, 3, 4, 5, 0, 0, 0, 0, 0]) 3 :=
  ⟨by norm_num, by decide, by decide,
    (quotient_three_chunks 2 (by norm_num)
      [1, 2, 3, 4, 5, 6, 1, 2, 3, 4, 5, 0, 0, 0, 0, 0] (by decide) 3
      (by decide)).2.2.2.2.2.1⟩

/-! ## Claim C8 — the interleaved setup commitment -/

theorem commitTraceList_length {F : Type} [Field F] (toCanon : List F → List F)
    (tr : TraceData F) :
    (commitTraceList toCanon tr).length = 8 + tr.Qcp.length := by
  simp [commitTraceList]
  omega

theorem commitTraceBuf_length {F : Type} [Field F] (tl : List (List F))
    (t size : Nat) : (commitTraceBuf tl t size).length = size * t := by
  unfold commitTraceBuf
  rw [List.length_flatMap]
  have h : List.map
      (List.length ∘ fun i => (List.range t).map fun j => (tl.getD j []).getD i 0)
      (List.range size) = List.replicate size t := by
    rw [List.eq_replicate_iff]
    constructor
    · simp
    · intro b hb
      simp only [List.mem_map, Function.comp_apply] at hb
      obtain ⟨a, _, hab⟩ := hb
      simp [← hab]
  rw [h, List.sum_replicate, smul_eq_mul]

theorem commitTraceBuf_getElem? {F : Type} [Field F] (tl : List (List F)) (t : Nat) :
    ∀ size i j, i < size → j < t →
      (commitTraceBuf tl t size)[i * t + j]? = some ((tl.getD j []).getD i 0) := by
  intro size
  induction size with
  | zero => intro i j hi _; exact absurd hi (Nat.not_lt_zero i)
  | succ sz ih =>
    intro i j hi hj
    rw [commitTraceBuf, List.range_succ, List.flatMap_append]
    by_cases his : i < sz
    · have hidx : i * t + j < ((List.range sz).flatMap fun i =>
          (List.range t).map fun j => (tl.getD j []).getD i 0).length := by
        rw [show ((List.range sz).flatMap fun i =>
            (List.range t).map fun j => (tl.getD j []).getD i 0)
          = commitTraceBuf tl t sz from rfl, commitTraceBuf_length]
        calc i * t + j < i * t + t := by omega
          _ = (i + 1) * t := by ring
          _ ≤ sz * t := Nat.mul_le_mul_right t his
      rw [List.getElem?_append_left hidx]
      exact ih i j his hj
    · have hieq : i = sz := by omega
      subst hieq
      have hlen : ((List.range i).flatMap fun i =>
          (List.range t).map fun j => (tl.getD j []).getD i 0).length = i * t := by
        rw [show ((List.range i).flatMap fun i =>
            (List.range t).map fun j => (tl.getD j []).getD i 0)
          = commitTraceBuf tl t i from rfl, commitTraceBuf_length]
      rw [List.getElem?_append_right (by rw [hlen]; exact Nat.le_add_right _ _),
        hlen, Nat.add_sub_cancel_left]
      simp only [List.flatMap_cons, List.flatMap_nil, List.append_nil]
      rw [List.getElem?_map, List.getElem?_range hj]
      rfl

theorem commitTraceBuf_getD {F : Type} [Field F] (tl : List (List F))
    (t size i j : Nat) (hi : i < size) (hj : j < t) :
    (commitTraceBuf tl t size).getD (i * t + j) 0 = (tl.getD j []).getD i 0 := by
  rw [List.getD_eq_getElem?_getD, commitTraceBuf_getElem? tl t size i j hi hj]
  rfl

/-- Claim C8: `commitTrace` interleaves the setup polynomials (Ql, Qr, Qm, Qo,
incomplete Qk, S1, S2, S3 and the Qcp's, in canonical regular form via
`toCanon`) into one buffer of size `t × n` with `t = 15 + 2·|Qcp|`, placing
coefficient `i` of polynomial `j` at slot `i·t + j` and leaving every slot
with polynomial index `j ≥ 8 + |Qcp|` zero, and a successful `Setup` stores
exactly the one KZG commitment of this buffer in `vk.Qpublic`. -/
theorem commitTrace_interleaving {F : Type} [Field F] {G : Type}
    [AddCommGroup G] [Module F G] (c : SparseR1CS F) (g u : F)
    (toCanon : List F → List F) (srsG1 : List G) (i j : Nat)
    (hi : i < domainCardinality c) (hj : j < foldingT c.CommitmentInfo.length) :
    foldingT (NewTrace c g u).Qcp.length = 15 + 2 * c.CommitmentInfo.length ∧
    (commitTraceBuf (commitTraceList toCanon (NewTrace c g u))
        (foldingT (NewTrace c g u).Qcp.length) (domainCardinality c)).length
      = foldingT c.CommitmentInfo.length * domainCardinality c ∧
    (commitTraceBuf (commitTraceList toCanon (NewTrace c g u))
        (foldingT (NewTrace c g u).Qcp.length) (domainCardinality c)).getD
        (i * foldingT c.CommitmentInfo.length + j) 0
      = (if j < 8 + c.CommitmentInfo.length
          then ((commitTraceList toCanon (NewTrace c g u)).getD j []).getD i 0
          else 0) ∧
    (∀ vk : SetupVk G, Setup c srsG1 g u toCanon = .ok vk →
      kzgCommit (commitTraceBuf (commitTraceList toCanon (NewTrace c g u))
          (foldingT (NewTrace c g u).Qcp.length) (domainCardinality c)) srsG1
        = .ok vk.Qpublic) := by
  have hQcpLen : (NewTrace c g u).Qcp.length = c.CommitmentInfo.length := by
    simp [NewTrace]
  refine ⟨by rw [hQcpLen]; rfl, ?_, ?_, ?_⟩
  · rw [commitTraceBuf_length, hQcpLen, Nat.mul_comm]
  · rw [hQcpLen]
    rw [commitTraceBuf_getD _ _ _ i j hi hj]
    by_cases hcase : j < 8 + c.CommitmentInfo.length
    · rw [if_pos hcase]
    · rw [if_neg hcase]
      rw [List.getD_eq_default (commitTraceList toCanon (NewTrace c g u)) []
        (by rw [commitTraceList_length, hQcpLen]; omega)]
      rfl
  · intro vk h
    unfold Setup at h
    split_ifs at h
    rcases hE : commitTrace toCanon (NewTrace c g u) (domainCardinality c) srsG1
      with e | d
    · rw [hE] at h
      exact absurd h (by simp)
    · rw [hE] at h
      simp only [Except.ok.injEq] at h
      subst h
      simpa [commitTrace] using hE

/-- Witness for C8 at the concrete two-gate circuit (`q = 0`, `t = 15`,
`n = 2`): the slot with polynomial index `j = 9 ≥ 8` of row `i = 1` is zero. -/
theorem commitTrace_interleaving_witness :
    1 < domainCardinality exampleCircuit ∧
    9 < foldingT exampleCircuit.CommitmentInfo.length ∧
    (commitTraceBuf (commitTraceList id (NewTrace exampleCircuit 1 1))
        (foldingT (NewTrace exampleCircuit 1 1).Qcp.length)
        (domainCardinality exampleCircuit)).getD
        (1 * foldingT exampleCircuit.CommitmentInfo.length + 9) 0
      = (if 9 < 8 + exampleCircuit.CommitmentInfo.length
          then ((commitTraceList id (NewTrace exampleCircuit 1 1)).getD 9 []).getD 1 0
          else 0) :=
  ⟨by decide, by decide,
    (commitTrace_interleaving exampleCircuit 1 1 id ([] : List (ZMod 7)) 1 9
      (by decide) (by decide)).2.2.1⟩

/-! ## Claim C1 — when Setup fails -/

/-- Claim C1 (amended): `Setup` succeeds iff the small-domain cardinality is
at least 2 AND the SRS holds at least `t·n` G1 elements (`t = 15 + 2·|Qcp|`,
`n` the cardinality) — the explicit `n + 3` check is subsumed by the size
`t·n` that the single `commitTrace` commitment of the interleaved buffer
needs, so an SRS with `n + 3 ≤ |SRS| < t·n` passes both explicit checks and
`Setup` still fails, inside the commitment. -/
theorem setup_isOk_iff {F : Type} [Field F] {G : Type} [AddCommGroup G]
    [Module F G] (c : SparseR1CS F) (srsG1 : List G) (g u : F)
    (toCanon : List F → List F) :
    (Setup c srsG1 g u toCanon).isOk = true ↔
      (2 ≤ domainCardinality c ∧
        foldingT c.CommitmentInfo.length * domainCardinality c ≤ srsG1.length) := by
  have hQcpLen : (NewTrace c g u).Qcp.length = c.CommitmentInfo.length := by
    simp [NewTrace]
  have hblen : (commitTraceBuf (commitTraceList toCanon (NewTrace c g u))
      (foldingT (NewTrace c g u).Qcp.length) (domainCardinality c)).length
      = domainCardinality c * foldingT c.CommitmentInfo.length := by
    rw [commitTraceBuf_length, hQcpLen]
  have ht15 : 15 ≤ foldingT c.CommitmentInfo.length := by
    unfold foldingT number_polynomials
    omega
  unfold Setup
  by_cases h2 : domainCardinality c < 2
  · rw [if_pos h2]
    refine iff_of_false (by simp [Except.isOk, Except.toBool]) ?_
    rintro ⟨hc2, -⟩
    omega
  · rw [if_neg h2]
    by_cases h3 : srsG1.length < domainCardinality c + 3
    · rw [if_pos h3]
      refine iff_of_false (by simp [Except.isOk, Except.toBool]) ?_
      rintro ⟨hc2, hle⟩
      have hmul : 15 * domainCardinality c
          ≤ foldingT c.CommitmentInfo.length * domainCardinality c :=
        Nat.mul_le_mul_right _ ht15
      rw [Nat.mul_comm (foldingT c.CommitmentInfo.length)] at hmul
      rw [Nat.mul_comm] at hle
      omega
    · rw [if_neg h3]
      rcases hE : commitTrace toCanon (NewTrace c g u) (domainCardinality c) srsG1
        with e | d
      · have hcond : srsG1.length
            < domainCardinality c * foldingT c.CommitmentInfo.length := by
          unfold commitTrace kzgCommit at hE
          split_ifs at hE with hcondi
          rcases hcondi with h0 | hlt
          · rw [hblen] at h0
            have hpos : 0 < domainCardinality c * foldingT c.CommitmentInfo.length :=
              Nat.mul_pos (by omega) (by omega)
            omega
          · rw [hblen] at hlt
            exact hlt
        refine iff_of_false (by simp [Except.isOk, Except.toBool]) ?_
        rintro ⟨-, hle⟩
        rw [Nat.mul_comm] at hle
        omega
      · have hcond : ¬((commitTraceBuf (commitTraceList toCanon (NewTrace c g u))
            (foldingT (NewTrace c g u).Qcp.length) (domainCardinality c)).length = 0
            ∨ srsG1.length < (commitTraceBuf (commitTraceList toCanon (NewTrace c g u))
              (foldingT (NewTrace c g u).Qcp.length) (domainCardinality c)).length) := by
          unfold commitTrace kzgCommit at hE
          split_ifs at hE with hcondi
          exact hcondi
        push_neg at hcond
        refine iff_of_true (by simp [Except.isOk, Except.toBool]) ⟨by omega, ?_⟩
        have := hcond.2
        rw [hblen] at this
        rw [Nat.mul_comm]
        omega

/-- Claim C1 counterexample: for the concrete two-gate circuit (`n = 2`,
`t = 15`) and an SRS of exactly `n + 3 = 5` G1 elements, both explicit checks
pass (`n ≥ 2` and `|SRS| ≥ n + 3`), yet `Setup` returns an error: the
interleaved buffer of `commitTrace` has `t·n = 30` coefficients and its single
commitment fails for lack of key elements — refuting both the claimed
"if and only if" and the claim that the commitment never fails for lack of
key elements once the `n + 3` check passed. -/
theorem setup_fails_after_size_check :
    (Setup exampleCircuit (List.replicate 5 (1 : ZMod 7)) 1 1 id).isOk = false ∧
    ¬(domainCardinality exampleCircuit < 2) ∧
    ¬((List.replicate 5 (1 : ZMod 7)).length < domainCardinality exampleCircuit + 3) :=
  ⟨by decide, by decide, by decide⟩

/-! ## Claim C2 — the two point-sets of batchOpening -/

/-- Claim C2 counterexample: the first polynomial set of `batchOpening` DOES
contain the blinded Z — prove.go line 699 fills slot `prover_z + |Qcp|` with
`getBlindedCoefficients(s.x[id_Z], s.bp[id_Bz])` — and at the concrete prover
state the blinded Z differs from every other slotted polynomial, so the first
set is not "every slotted polynomial except Z". -/
theorem batchOpening_set1_contains_blinded_Z :
    getBlindedCoefficients exampleProverState.z exampleProverState.bz
      ∈ polysToOpenSet1 exampleProverState ∧
    getBlindedCoefficients exampleProverState.z exampleProverState.bz
      ∉ ([exampleProverState.ql, exampleProverState.qr, exampleProverState.qm,
          exampleProverState.qo, exampleProverState.qk, exampleProverState.s1,
          exampleProverState.s2, exampleProverState.s3,
          getBlindedCoefficients exampleProverState.l exampleProverState.bl,
          getBlindedCoefficients exampleProverState.r exampleProverState.br,
          getBlindedCoefficients exampleProverState.o exampleProverState.bo,
          h1Slice exampleProverState.n exampleProverState.hq,
          h2Slice exampleProverState.n exampleProverState.hq,
          h3Slice exampleProverState.n exampleProverState.hq] :
            List (List (ZMod 7))) := by
  constructor
  · decide
  · decide

/-- Claim C2 (amended): in `batchOpening` the first point-set is `{ζ}` and its
polynomial set is the full slot array — Ql, Qr, Qm, Qo, incomplete Qk, S1,
S2, S3, the Qcp's, blinded L, R, O, the blinded Z, H1, H2, H3 and the
custom-gate witness polynomials — while the second point-set is `{ω·ζᵗ}` and
contains only the blinded Z. -/
theorem batchOpening_two_point_sets {F : Type} [Field F] (s : ProverState F)
    (hq : s.cCommitments.length = s.qcp.length) :
    polysToOpen s = [polysToOpenSet1 s, [getBlindedCoefficients s.z s.bz]] ∧
    openingPoints s =
      [[s.zeta], [s.zeta ^ getNextDivisorRMinusOne s.qcp.length * s.gen]] ∧
    (polysToOpenSet1 s).length = getNextDivisorRMinusOne s.qcp.length ∧
    (polysToOpenSet1 s).take 8 =
      [s.ql, s.qr, s.qm, s.qo, s.qk, s.s1, s.s2, s.s3] ∧
    ((polysToOpenSet1 s).drop 8).take s.qcp.length = s.qcp ∧
    ((polysToOpenSet1 s).drop (8 + s.qcp.length)).take 7 =
      [getBlindedCoefficients s.l s.bl, getBlindedCoefficients s.r s.br,
       getBlindedCoefficients s.o s.bo, getBlindedCoefficients s.z s.bz,
       h1Slice s.n s.hq, h2Slice s.n s.hq, h3Slice s.n s.hq] ∧
    (polysToOpenSet1 s).drop (number_polynomials + s.qcp.length) =
      s.cCommitments ∧
    (polysToOpenSet1 s).getD (prover_z + s.qcp.length) [] =
      getBlindedCoefficients s.z s.bz ∧
    getBlindedCoefficients s.z s.bz ∈ polysToOpenSet1 s := by
  have hassoc : polysToOpenSet1 s =
      [s.ql, s.qr, s.qm, s.qo, s.qk, s.s1, s.s2, s.s3]
        ++ (s.qcp ++ ([getBlindedCoefficients s.l s.bl,
            getBlindedCoefficients s.r s.br, getBlindedCoefficients s.o s.bo,
            getBlindedCoefficients s.z s.bz, h1Slice s.n s.hq,
            h2Slice s.n s.hq, h3Slice s.n s.hq] ++ s.cCommitments)) := by
    simp [polysToOpenSet1]
  have hdrop8 : (polysToOpenSet1 s).drop 8 =
      s.qcp ++ ([getBlindedCoefficients s.l s.bl,
        getBlindedCoefficients s.r s.br, getBlindedCoefficients s.o s.bo,
        getBlindedCoefficients s.z s.bz, h1Slice s.n s.hq,
        h2Slice s.n s.hq, h3Slice s.n s.hq] ++ s.cCommitments) := by
    rw [hassoc]
    exact List.drop_left' (by simp)
  have hdrop8q : (polysToOpenSet1 s).drop (8 + s.qcp.length) =
      [getBlindedCoefficients s.l s.bl, getBlindedCoefficients s.r s.br,
       getBlindedCoefficients s.o s.bo, getBlindedCoefficients s.z s.bz,
       h1Slice s.n s.hq, h2Slice s.n s.hq, h3Slice s.n s.hq]
        ++ s.cCommitments := by
    rw [← List.drop_drop, hdrop8]
    exact List.drop_left' rfl
  refine ⟨rfl, rfl, ?_, ?_, ?_, ?_, ?_, ?_, ?_⟩
  · simp [polysToOpenSet1, getNextDivisorRMinusOne, number_polynomials, hq]
    omega
  · rw [hassoc]
    exact List.take_left' (by simp)
  · rw [hdrop8]
    exact List.take_left' rfl
  · rw [hdrop8q]
    exact List.take_left' rfl
  · rw [show number_polynomials + s.qcp.length = (8 + s.qcp.length) + 7 by
      unfold number_polynomials; omega, ← List.drop_drop, hdrop8q]
    exact List.drop_left' rfl
  · have hz : (polysToOpenSet1 s).getD (prover_z + s.qcp.length) [] =
        ((polysToOpenSet1 s).drop (8 + s.qcp.length)).getD 3 [] := by
      rw [List.getD_eq_getElem?_getD, List.getD_eq_getElem?_getD,
        List.getElem?_drop,
        show 8 + s.qcp.length + 3 = prover_z + s.qcp.length by
          unfold prover_z; omega]
    rw [hz, hdrop8q]
    rfl
  · rw [hassoc]
    simp

/-- Witness for the amended C2 at the concrete prover state (no custom
gates): slot `prover_z + 0 = 11` of the first set is the blinded Z, and the
second opening point is `ζ¹⁵·ω`. -/
theorem batchOpening_two_point_sets_witness :
    exampleProverState.cCommitments.length = exampleProverState.qcp.length ∧
    (polysToOpenSet1 exampleProverState).getD
        (prover_z + exampleProverState.qcp.length) []
      = getBlindedCoefficients exampleProverState.z exampleProverState.bz ∧
    openingPoints exampleProverState =
      [[exampleProverState.zeta],
       [exampleProverState.zeta
          ^ getNextDivisorRMinusOne exampleProverState.qcp.length
          * exampleProverState.gen]] :=
  ⟨rfl, (batchOpening_two_point_sets exampleProverState rfl).2.2.2.2.2.2.2.1,
    (batchOpening_two_point_sets exampleProverState rfl).2.1⟩

/-! ## Claim C5 — the cycle structure of buildPermutation -/

section PermProofs

variable (v : Nat → Nat)

theorem lastOccBefore_zero (x : Nat) : lastOccBefore v 0 x = -1 := rfl

theorem lastOccBefore_succ (m x : Nat) :
    lastOccBefore v (m + 1) x =
      if v m = x then (m : Int) else lastOccBefore v m x := by
  simp [lastOccBefore, List.range_succ]

theorem cycleArr_eq (m x : Nat) : cycleArr v m x = lastOccBefore v m x := by
  induction m with
  | zero => rfl
  | succ m ih =>
    rw [cycleArr, lastOccBefore_succ, Function.update_apply]
    by_cases h : v m = x
    · rw [if_pos h, if_pos h.symm]
    · rw [if_neg h, if_neg (fun hc => h hc.symm), ih]

theorem permArr_of_le (m i : Nat) (h : m ≤ i) : permArr v m i = -1 := by
  induction m with
  | zero => rfl
  | succ m ih =>
    rw [permArr]
    split
    · exact ih (by omega)
    · rw [Function.update_noteq (by omega) _ (permArr v m)]
      exact ih (by omega)

theorem permArr_of_lt (m i : Nat) (h : i < m) :
    permArr v m i = lastOccBefore v i (v i) := by
  induction m with
  | zero => omega
  | succ m ih =>
    by_cases him : i < m
    · rw [permArr]
      split
      · exact ih him
      · rw [Function.update_noteq (by omega) _ (permArr v m)]
        exact ih him
    · have hieq : i = m := by omega
      subst hieq
      rw [permArr]
      split
      · rename_i hcyc
        rw [permArr_of_le v i i le_rfl, ← cycleArr_eq, hcyc]
      · rw [Function.update_same, cycleArr_eq]

theorem traceSFun_eq (N i : Nat) (h : i < N) :
    traceSFun v N i =
      if lastOccBefore v i (v i) = -1 then lastOccBefore v N (v i)
      else lastOccBefore v i (v i) := by
  rw [traceSFun, permArr_of_lt v N i h, cycleArr_eq]

theorem mem_occList (m x j : Nat) : j ∈ occList v m x ↔ j < m ∧ v j = x := by
  simp [occList, List.mem_filter, List.mem_range]

theorem occList_sorted (m x : Nat) :
    List.Sorted (· < ·) (occList v m x) :=
  (List.pairwise_lt_range m).filter _

theorem occList_nodup (m x : Nat) : (occList v m x).Nodup :=
  (List.nodup_range m).filter _

theorem lastOccBefore_eq_getLast (m x : Nat) :
    lastOccBefore v m x =
      (occList v m x).getLast?.elim (-1 : Int) (fun j => (j : Int)) := by
  induction m with
  | zero => rfl
  | succ m ih =>
    rw [lastOccBefore_succ]
    have hocc : occList v (m + 1) x =
        occList v m x ++ if v m = x then [m] else [] := by
      simp only [occList, List.range_succ, List.filter_append]
      congr 1
      by_cases h : v m = x <;> simp [h]
    rw [hocc]
    by_cases h : v m = x
    · rw [if_pos h, if_pos h, List.getLast?_concat]
      rfl
    · rw [if_neg h, if_neg h, List.append_nil, ih]

theorem occList_restrict (N m x : Nat) (h : m ≤ N) :
    occList v m x = (occList v N x).filter fun j => decide (j < m) := by
  induction N with
  | zero =>
    have hm : m = 0 := by omega
    subst hm
    rfl
  | succ n ih =>
    by_cases hmn : m ≤ n
    · have hocc : occList v (n + 1) x =
          occList v n x ++ if v n = x then [n] else [] := by
        simp only [occList, List.range_succ, List.filter_append]
        congr 1
        by_cases hv : v n = x <;> simp [hv]
      rw [hocc, List.filter_append, ih hmn]
      have htail : (if v n = x then [n] else []).filter
          (fun j => decide (j < m)) = [] := by
        by_cases hv : v n = x
        · simp [hv]
          omega
        · simp [hv]
      rw [htail, List.append_nil]
    · have hm : m = n + 1 := by omega
      subst hm
      symm
      rw [List.filter_eq_self]
      intro a ha
      rw [mem_occList] at ha
      simp [ha.1]

theorem sorted_filter_lt_eq_take (L : List Nat)
    (hs : List.Sorted (· < ·) L) (a : Nat) (ha : a < L.length) (p : Nat)
    (hp : L.getD a 0 = p) :
    L.filter (fun j => decide (j < p)) = L.take a := by
  conv_lhs => rw [← List.take_append_drop a L]
  rw [List.filter_append]
  have hpa : L[a] = p := by
    rw [← hp, List.getD_eq_getElem?_getD, List.getElem?_eq_getElem ha]
    rfl
  have h1 : (L.take a).filter (fun j => decide (j < p)) = L.take a := by
    rw [List.filter_eq_self]
    intro b hb
    rw [List.mem_iff_getElem] at hb
    obtain ⟨i, hi, hbi⟩ := hb
    have hia : i < a := by
      rw [List.length_take] at hi
      omega
    have hii : i < L.length := by omega
    rw [decide_eq_true_eq, ← hbi, List.getElem_take, ← hpa]
    exact hs.get_strictMono (show (⟨i, hii⟩ : Fin L.length) < ⟨a, ha⟩ from hia)
  have h2 : (L.drop a).filter (fun j => decide (j < p)) = [] := by
    rw [List.filter_eq_nil_iff]
    intro b hb
    rw [List.mem_iff_getElem] at hb
    obtain ⟨i, hi, hbi⟩ := hb
    have hii : a + i < L.length := by
      rw [List.length_drop] at hi
      omega
    rw [List.getElem_drop] at hbi
    simp only [decide_eq_true_eq, ← hbi, ← hpa]
    have hle : L[a] ≤ L[a + i] :=
      (hs.get_strictMono).monotone
        (show (⟨a, ha⟩ : Fin L.length) ≤ ⟨a + i, hii⟩ from Nat.le_add_right a i)
    omega
  rw [h1, h2, List.append_nil]

theorem getLast_take_sorted (L : List Nat) (a : Nat) (ha1 : 1 ≤ a)
    (ha : a ≤ L.length) :
    (L.take a).getLast? = some (L.getD (a - 1) 0) := by
  rw [List.getLast?_eq_getElem?, List.length_take,
    show min a L.length - 1 = a - 1 by omega, List.getElem?_take,
    if_pos (by omega), List.getElem?_eq_getElem (by omega),
    List.getD_eq_getElem?_getD, List.getElem?_eq_getElem (by omega)]
  rfl

/-- Rotation step: on the increasing list of positions holding a given
variable id, `trace.S` maps the `a`-th occurrence to the `a-1`-th (and the
first back to the last), i.e. to index `(a + k - 1) % k`. -/
theorem traceSFun_occList_rotate (v : Nat → Nat) (N x a : Nat)
    (ha : a < (occList v N x).length) :
    traceSFun v N ((occList v N x).getD a 0) =
      (((occList v N x).getD
        ((a + (occList v N x).length - 1) % (occList v N x).length) 0 : Nat)
        : Int) := by
  have hmem : (occList v N x).getD a 0 ∈ occList v N x := by
    rw [List.getD_eq_getElem?_getD, List.getElem?_eq_getElem ha]
    exact List.getElem_mem _
  have hiN : (occList v N x).getD a 0 < N ∧ v ((occList v N x).getD a 0) = x :=
    (mem_occList v N x _).mp hmem
  have hocc_i : occList v ((occList v N x).getD a 0) x =
      (occList v N x).take a := by
    rw [occList_restrict v N ((occList v N x).getD a 0) x (le_of_lt hiN.1)]
    exact sorted_filter_lt_eq_take (occList v N x) (occList_sorted v N x) a ha
      _ rfl
  rw [traceSFun_eq v N _ hiN.1, show v ((occList v N x).getD a 0) = x
      from hiN.2, lastOccBefore_eq_getLast v _ x, hocc_i,
    lastOccBefore_eq_getLast v N x]
  by_cases ha0 : a = 0
  · subst ha0
    rw [List.take_zero]
    simp only [List.getLast?_nil, Option.elim]
    rw [if_pos (by trivial), Nat.zero_add,
      Nat.mod_eq_of_lt (show (occList v N x).length - 1 < (occList v N x).length
        by omega),
      List.getLast?_eq_getElem?,
      List.getElem?_eq_getElem (show (occList v N x).length - 1
        < (occList v N x).length by omega)]
    simp only [Option.elim]
    rw [List.getD_eq_getElem _ 0 (show (occList v N x).length - 1
      < (occList v N x).length by omega)]
  · rw [getLast_take_sorted (occList v N x) a (by omega) (by omega)]
    simp only [Option.elim]
    rw [if_neg (by omega),
      show a + (occList v N x).length - 1 = (a - 1) + (occList v N x).length
        by omega,
      Nat.add_mod_right, Nat.mod_eq_of_lt (by omega : a - 1 < (occList v N x).length)]

/-- Iterating `trace.S` from the `a`-th occurrence of an id lands on the
`(a + m(k-1)) mod k`-th occurrence. -/
theorem sIter_occList (v : Nat → Nat) (N x : Nat) (m : Nat) :
    ∀ a, a < (occList v N x).length →
      sIter v N m ((occList v N x).getD a 0) =
        (occList v N x).getD
          ((a + m * ((occList v N x).length - 1)) % (occList v N x).length) 0 := by
  induction m with
  | zero =>
    intro a ha
    simp only [sIter, Nat.zero_mul, Nat.add_zero]
    rw [Nat.mod_eq_of_lt ha]
  | succ m ih =>
    intro a ha
    simp only [sIter]
    rw [ih a ha]
    have hb : (a + m * ((occList v N x).length - 1)) % (occList v N x).length
        < (occList v N x).length := Nat.mod_lt _ (by omega)
    rw [traceSFun_occList_rotate v N x _ hb, Int.toNat_natCast]
    congr 1
    rw [show (a + m * ((occList v N x).length - 1)) % (occList v N x).length
          + (occList v N x).length - 1
        = (a + m * ((occList v N x).length - 1)) % (occList v N x).length
          + ((occList v N x).length - 1) by omega,
      Nat.mod_add_mod]
    congr 1
    rw [Nat.succ_mul]
    omega

/-- On a cycle of length `k`, rotation by `-1` reaches every index. -/
theorem rotate_reach (a b k : Nat) (ha : a < k) (hb : b < k) :
    ∃ m, (a + m * (k - 1)) % k = b := by
  refine ⟨a + (k - b), ?_⟩
  have h1 : (a + (k - b)) * (k - 1) + (a + (k - b)) = (a + (k - b)) * k := by
    cases k with
    | zero => omega
    | succ kk => simp [Nat.mul_succ]
  have h2 : (a + (k - b) - 1) * k + k = (a + (k - b)) * k := by
    have hs : (a + (k - b) - 1) + 1 = a + (k - b) := by omega
    calc (a + (k - b) - 1) * k + k = ((a + (k - b) - 1) + 1) * k := by
          rw [Nat.succ_mul]
      _ = (a + (k - b)) * k := by rw [hs]
  have h3 : a + (a + (k - b)) * (k - 1) = (a + (k - b) - 1) * k + b := by omega
  rw [h3, Nat.mul_comm, Nat.mul_add_mod, Nat.mod_eq_of_lt hb]

/-- One application of `trace.S` stays inside `[0, N)` and preserves the
variable id. -/
theorem traceSFun_mem_class (v : Nat → Nat) (N i : Nat) (hi : i < N) :
    0 ≤ traceSFun v N i ∧ (traceSFun v N i).toNat < N ∧
      v ((traceSFun v N i).toNat) = v i := by
  have hmem : i ∈ occList v N (v i) := (mem_occList v N (v i) i).mpr ⟨hi, rfl⟩
  rw [List.mem_iff_getElem] at hmem
  obtain ⟨a, ha, hai⟩ := hmem
  have hgetD : (occList v N (v i)).getD a 0 = i := by
    rw [List.getD_eq_getElem _ _ ha, hai]
  have hrot := traceSFun_occList_rotate v N (v i) a ha
  rw [hgetD] at hrot
  have hidxlt : (a + (occList v N (v i)).length - 1) % (occList v N (v i)).length
      < (occList v N (v i)).length := Nat.mod_lt _ (by omega)
  have hmem2 : (occList v N (v i)).getD
      ((a + (occList v N (v i)).length - 1) % (occList v N (v i)).length) 0
      ∈ occList v N (v i) := by
    rw [List.getD_eq_getElem _ _ hidxlt]
    exact List.getElem_mem hidxlt
  have hprops := (mem_occList v N (v i) _).mp hmem2
  refine ⟨?_, ?_, ?_⟩
  · rw [hrot]
    exact Int.natCast_nonneg _
  · rw [hrot, Int.toNat_natCast]
    exact hprops.1
  · rw [hrot, Int.toNat_natCast]
    exact hprops.2

/-- Iterating `trace.S` stays inside `[0, N)` and preserves the variable id. -/
theorem sIter_mem_class (v : Nat → Nat) (N i : Nat) (hi : i < N) (m : Nat) :
    sIter v N m i < N ∧ v (sIter v N m i) = v i := by
  induction m with
  | zero => exact ⟨hi, rfl⟩
  | succ m ih =>
    simp only [sIter]
    have h := traceSFun_mem_class v N _ ih.1
    exact ⟨h.2.1, by rw [h.2.2, ih.2]⟩

end PermProofs

/-- Claim C5: `trace.S` built by `buildPermutation` is a permutation of
`{0, …, 3n-1}` with no `-1` sentinel remaining (`n` = small-domain
cardinality): every entry is a nonnegative index `< 3n`, the map is injective
and surjective on `{0, …, 3n-1}`, the variable id referenced at position
`S[i]` equals the id referenced at position `i`, and iterating `S` from any
position `i` visits exactly the positions of `l∥r∥o` referencing the same
variable as `i`. -/
theorem buildPermutation_cycle_structure {F : Type} [Field F]
    (c : SparseR1CS F) :
    (buildPermutation c).length = 3 * traceSize c ∧
    (∀ i, i < 3 * traceSize c → (buildPermutation c).getD i 0
      = traceSFun (lroAt c) (3 * traceSize c) i) ∧
    (∀ i, i < 3 * traceSize c →
      0 ≤ traceSFun (lroAt c) (3 * traceSize c) i ∧
      (traceSFun (lroAt c) (3 * traceSize c) i).toNat < 3 * traceSize c) ∧
    (∀ i, i < 3 * traceSize c →
      lroAt c ((traceSFun (lroAt c) (3 * traceSize c) i).toNat) = lroAt c i) ∧
    (∀ i j, i < 3 * traceSize c → j < 3 * traceSize c →
      traceSFun (lroAt c) (3 * traceSize c) i
        = traceSFun (lroAt c) (3 * traceSize c) j → i = j) ∧
    (∀ j, j < 3 * traceSize c → ∃ i, i < 3 * traceSize c ∧
      traceSFun (lroAt c) (3 * traceSize c) i = (j : Int)) ∧
    (∀ i j, i < 3 * traceSize c → j < 3 * traceSize c →
      (lroAt c i = lroAt c j ↔
        ∃ m, sIter (lroAt c) (3 * traceSize c) m i = j)) := by
  refine ⟨by simp [buildPermutation], ?_, ?_, ?_, ?_, ?_, ?_⟩
  · intro i hi
    rw [buildPermutation, List.getD_eq_getElem?_getD, List.getElem?_map,
      List.getElem?_range hi]
    rfl
  · intro i hi
    have h := traceSFun_mem_class (lroAt c) (3 * traceSize c) i hi
    exact ⟨h.1, h.2.1⟩
  · intro i hi
    exact (traceSFun_mem_class (lroAt c) (3 * traceSize c) i hi).2.2
  · -- injectivity
    intro i j hi hj heq
    have hvij : lroAt c i = lroAt c j := by
      have h1 := (traceSFun_mem_class (lroAt c) (3 * traceSize c) i hi).2.2
      have h2 := (traceSFun_mem_class (lroAt c) (3 * traceSize c) j hj).2.2
      rw [← h1, ← h2, heq]
    have hmi : i ∈ occList (lroAt c) (3 * traceSize c) (lroAt c i) :=
      (mem_occList _ _ _ i).mpr ⟨hi, rfl⟩
    have hmj : j ∈ occList (lroAt c) (3 * traceSize c) (lroAt c i) :=
      (mem_occList _ _ _ j).mpr ⟨hj, hvij.symm⟩
    rw [List.mem_iff_getElem] at hmi hmj
    obtain ⟨a, ha, hai⟩ := hmi
    obtain ⟨b, hb, hbj⟩ := hmj
    have hroti := traceSFun_occList_rotate (lroAt c) (3 * traceSize c)
      (lroAt c i) a ha
    have hrotj := traceSFun_occList_rotate (lroAt c) (3 * traceSize c)
      (lroAt c i) b hb
    rw [List.getD_eq_getElem _ _ ha, hai] at hroti
    rw [List.getD_eq_getElem _ _ hb, hbj] at hrotj
    rw [hroti, hrotj, Int.natCast_inj] at heq
    have hlta : (a + (occList (lroAt c) (3 * traceSize c) (lroAt c i)).length - 1)
        % (occList (lroAt c) (3 * traceSize c) (lroAt c i)).length
        < (occList (lroAt c) (3 * traceSize c) (lroAt c i)).length :=
      Nat.mod_lt _ (by omega)
    have hltb : (b + (occList (lroAt c) (3 * traceSize c) (lroAt c i)).length - 1)
        % (occList (lroAt c) (3 * traceSize c) (lroAt c i)).length
        < (occList (lroAt c) (3 * traceSize c) (lroAt c i)).length :=
      Nat.mod_lt _ (by omega)
    rw [List.getD_eq_getElem _ _ hlta, List.getD_eq_getElem _ _ hltb,
      (occList_nodup (lroAt c) (3 * traceSize c) (lroAt c i)).getElem_inj_iff]
      at heq
    have hmodeq : a ≡ b
        [MOD (occList (lroAt c) (3 * traceSize c) (lroAt c i)).length] := by
      refine Nat.ModEq.add_right_cancel'
        ((occList (lroAt c) (3 * traceSize c) (lroAt c i)).length - 1) ?_
      have ha' : a + (occList (lroAt c) (3 * traceSize c) (lroAt c i)).length - 1
          = a + ((occList (lroAt c) (3 * traceSize c) (lroAt c i)).length - 1) :=
        by omega
      have hb' : b + (occList (lroAt c) (3 * traceSize c) (lroAt c i)).length - 1
          = b + ((occList (lroAt c) (3 * traceSize c) (lroAt c i)).length - 1) :=
        by omega
      rw [Nat.ModEq, ← ha', ← hb']
      exact heq
    have hab : a = b := by
      have := hmodeq
      rw [Nat.ModEq, Nat.mod_eq_of_lt ha, Nat.mod_eq_of_lt hb] at this
      exact this
    rw [← hai, ← hbj]
    subst hab
    rfl
  · -- surjectivity
    intro j hj
    have hmj : j ∈ occList (lroAt c) (3 * traceSize c) (lroAt c j) :=
      (mem_occList _ _ _ j).mpr ⟨hj, rfl⟩
    rw [List.mem_iff_getElem] at hmj
    obtain ⟨b, hb, hbj⟩ := hmj
    have hb1 : (b + 1) % (occList (lroAt c) (3 * traceSize c) (lroAt c j)).length
        < (occList (lroAt c) (3 * traceSize c) (lroAt c j)).length :=
      Nat.mod_lt _ (by omega)
    refine ⟨(occList (lroAt c) (3 * traceSize c) (lroAt c j)).getD
      ((b + 1) % (occList (lroAt c) (3 * traceSize c) (lroAt c j)).length) 0,
      ?_, ?_⟩
    · have hmem2 : (occList (lroAt c) (3 * traceSize c) (lroAt c j)).getD
          ((b + 1) % (occList (lroAt c) (3 * traceSize c) (lroAt c j)).length) 0
          ∈ occList (lroAt c) (3 * traceSize c) (lroAt c j) := by
        rw [List.getD_eq_getElem _ _ hb1]
        exact List.getElem_mem hb1
      exact ((mem_occList _ _ _ _).mp hmem2).1
    · rw [traceSFun_occList_rotate (lroAt c) (3 * traceSize c) (lroAt c j) _ hb1]
      have hidx : ((b + 1) % (occList (lroAt c) (3 * traceSize c) (lroAt c j)).length
            + (occList (lroAt c) (3 * traceSize c) (lroAt c j)).length - 1)
          % (occList (lroAt c) (3 * traceSize c) (lroAt c j)).length = b := by
        rw [show (b + 1) % (occList (lroAt c) (3 * traceSize c) (lroAt c j)).length
              + (occList (lroAt c) (3 * traceSize c) (lroAt c j)).length - 1
            = (b + 1) % (occList (lroAt c) (3 * traceSize c) (lroAt c j)).length
              + ((occList (lroAt c) (3 * traceSize c) (lroAt c j)).length - 1)
            by omega,
          Nat.mod_add_mod,
          show b + 1 + ((occList (lroAt c) (3 * traceSize c) (lroAt c j)).length - 1)
            = b + (occList (lroAt c) (3 * traceSize c) (lroAt c j)).length
            by omega,
          Nat.add_mod_right, Nat.mod_eq_of_lt hb]
      rw [hidx, List.getD_eq_getElem _ _ hb, hbj]
  · -- orbits are exactly the equal-id classes
    intro i j hi hj
    constructor
    · intro hv
      have hmi : i ∈ occList (lroAt c) (3 * traceSize c) (lroAt c i) :=
        (mem_occList _ _ _ i).mpr ⟨hi, rfl⟩
      have hmj : j ∈ occList (lroAt c) (3 * traceSize c) (lroAt c i) :=
        (mem_occList _ _ _ j).mpr ⟨hj, hv.symm⟩
      rw [List.mem_iff_getElem] at hmi hmj
      obtain ⟨a, ha, hai⟩ := hmi
      obtain ⟨b, hb, hbj⟩ := hmj
      obtain ⟨m, hm⟩ := rotate_reach a b
        (occList (lroAt c) (3 * traceSize c) (lroAt c i)).length ha hb
      refine ⟨m, ?_⟩
      have := sIter_occList (lroAt c) (3 * traceSize c) (lroAt c i) m a ha
      rw [List.getD_eq_getElem _ _ ha, hai, hm,
        List.getD_eq_getElem _ _ hb, hbj] at this
      exact this
    · rintro ⟨m, hm⟩
      rw [← hm]
      exact ((sIter_mem_class (lroAt c) (3 * traceSize c) i hi m).2).symm

/-- Witness for C5 at the concrete two-gate circuit: positions 0 and 1 of the
L block reference the same variable (wire 1), so they lie on a common cycle
of `trace.S`. -/
theorem buildPermutation_cycle_structure_witness :
    (0 < 3 * traceSize exampleCircuit) ∧ (1 < 3 * traceSize exampleCircuit) ∧
    (lroAt exampleCircuit 0 = lroAt exampleCircuit 1 ↔
      ∃ m, sIter (lroAt exampleCircuit) (3 * traceSize exampleCircuit) m 0 = 1) :=
  ⟨by decide, by decide,
    (buildPermutation_cycle_structure exampleCircuit).2.2.2.2.2.2 0 1
      (by decide) (by decide)⟩

end Fflonk
